import Mathlib

/-!
# Verification of the configuration-keyed cache + distributed execution engine

This file embeds the engine described by the repository's specification
(UID derivation over configuration trees, the artifact store with atomic
staged writes, cached invocation, map semantics and job-array batching)
and proves the testable properties stated there.  The repository ships
only usage examples of the engine (`src/examples/first_steps.ipynb`),
so every definition below is modelled from the specification text.
-/

namespace Exca

/-- Modelled from the spec: a validated configuration is an immutable tree
of typed fields ("Configuration: an immutable, validated tree of fields").
Leaves are typed values, inner nodes are records of named subfields. -/
inductive CVal where
  | int (n : Int)
  | str (s : String)
  | bool (b : Bool)
  | tree (fields : List (String × CVal))

/-- A configuration is a top-level record of named fields. -/
abbrev Config := List (String × CVal)

mutual

/-- Decidable equality on configuration values. -/
def decEqCVal : (a b : CVal) → Decidable (a = b)
  | .int n, .int m =>
    if h : n = m then .isTrue (by rw [h]) else .isFalse (fun hc => by cases hc; exact h rfl)
  | .int _, .str _ => .isFalse (fun h => CVal.noConfusion h)
  | .int _, .bool _ => .isFalse (fun h => CVal.noConfusion h)
  | .int _, .tree _ => .isFalse (fun h => CVal.noConfusion h)
  | .str _, .int _ => .isFalse (fun h => CVal.noConfusion h)
  | .str s, .str t =>
    if h : s = t then .isTrue (by rw [h]) else .isFalse (fun hc => by cases hc; exact h rfl)
  | .str _, .bool _ => .isFalse (fun h => CVal.noConfusion h)
  | .str _, .tree _ => .isFalse (fun h => CVal.noConfusion h)
  | .bool _, .int _ => .isFalse (fun h => CVal.noConfusion h)
  | .bool _, .str _ => .isFalse (fun h => CVal.noConfusion h)
  | .bool b, .bool c =>
    if h : b = c then .isTrue (by rw [h]) else .isFalse (fun hc => by cases hc; exact h rfl)
  | .bool _, .tree _ => .isFalse (fun h => CVal.noConfusion h)
  | .tree _, .int _ => .isFalse (fun h => CVal.noConfusion h)
  | .tree _, .str _ => .isFalse (fun h => CVal.noConfusion h)
  | .tree _, .bool _ => .isFalse (fun h => CVal.noConfusion h)
  | .tree fs, .tree gs =>
    match decEqFields fs gs with
    | .isTrue h => .isTrue (by rw [h])
    | .isFalse h => .isFalse (fun hc => h (by injection hc))

/-- Decidable equality on field lists. -/
def decEqFields : (a b : List (String × CVal)) → Decidable (a = b)
  | [], [] => .isTrue rfl
  | [], _ :: _ => .isFalse (fun h => List.noConfusion h)
  | _ :: _, [] => .isFalse (fun h => List.noConfusion h)
  | (k, v) :: fs, (k', v') :: gs =>
    if hk : k = k' then
      match decEqCVal v v' with
      | .isTrue hv =>
        match decEqFields fs gs with
        | .isTrue ht => .isTrue (by rw [hk, hv, ht])
        | .isFalse ht => .isFalse (fun h => ht (by injection h))
      | .isFalse hv =>
        .isFalse (fun h => by
          injection h with h1 h2
          exact hv (congrArg Prod.snd h1))
    else
      .isFalse (fun h => by
        injection h with h1 h2
        exact hk (congrArg Prod.fst h1))

end

instance : DecidableEq CVal := decEqCVal

/-- Key order used for the canonical (lexicographic key) walk of a record. -/
def keyLe (a b : String × CVal) : Prop := a.1 ≤ b.1

instance : DecidableRel keyLe := fun a b => inferInstanceAs (Decidable (a.1 ≤ b.1))

instance : IsTotal (String × CVal) keyLe := ⟨fun a b => le_total a.1 b.1⟩

instance : IsTrans (String × CVal) keyLe := ⟨fun _ _ _ h1 h2 => le_trans h1 h2⟩

/-- Strict key order; used to show the canonical form of a record with
distinct keys is unique. -/
def keyLt (a b : String × CVal) : Prop := a.1 < b.1

instance : IsAntisymm (String × CVal) keyLt :=
  ⟨fun _ _ h1 h2 => absurd (lt_trans h1 h2) (lt_irrefl _)⟩

mutual

/-- Modelled from the spec: UidDeriver "recursively walks the configuration
tree in a canonical (e.g., lexicographic key) order so that field
re-ordering in source data never changes the result". `canonVal` is that
canonical form of one value. -/
def canonVal : CVal → CVal
  | .int n => .int n
  | .str s => .str s
  | .bool b => .bool b
  | .tree fs => .tree (List.insertionSort keyLe (canonFields fs))

/-- Canonical form of each field value of a record (keys untouched). -/
def canonFields : List (String × CVal) → List (String × CVal)
  | [] => []
  | (k, v) :: rest => (k, canonVal v) :: canonFields rest

end

/-- Modelled from the spec: "Fields listed in `excluded_field_paths` (the
infra/execution subtree) are skipped entirely" — the semantic fields of a
configuration are the fields whose (top-level) name is not excluded. -/
def semanticFields (excl : List String) : Config → Config
  | [] => []
  | (k, v) :: rest =>
    if k ∈ excl then semanticFields excl rest else (k, v) :: semanticFields excl rest

/-- Modelled from the spec: a Uid is "derived deterministically and
injectively ... from a configuration's semantic fields plus a declared
cache-format version tag and the identity of the function/method being
cached (its qualified name)".  The model keeps the three ingredients of
the digest explicit: the hash step is collision-resistant, so identity of
digests is modelled as identity of the hashed canonical data. -/
structure Uid where
  owner : String
  version : String
  semantic : List (String × CVal)
deriving DecidableEq

/-- Modelled from the spec: `derive(config, excluded_field_paths, version,
owner_name) -> Uid`.  The excluded (infra) fields are dropped, the
remaining fields are put in canonical form and sorted by key, and the
version tag and owner name are mixed in. -/
def derive (cfg : Config) (excl : List String) (version owner : String) : Uid :=
  ⟨owner, version, List.insertionSort keyLe (canonFields (semanticFields excl cfg))⟩

/-- First value stored under key `k` in a record, if any. -/
def lookupKey (k : String) : List (String × CVal) → Option CVal
  | [] => none
  | (k', v) :: rest => if k' = k then some v else lookupKey k rest

/-- A validated record has pairwise distinct field names. -/
def NodupKeys (l : List (String × CVal)) : Prop := (l.map Prod.fst).Nodup

instance (l : List (String × CVal)) : Decidable (NodupKeys l) :=
  inferInstanceAs (Decidable ((l.map Prod.fst).Nodup))

theorem map_fst_canonFields (l : List (String × CVal)) :
    (canonFields l).map Prod.fst = l.map Prod.fst := by
  induction l with
  | nil => rfl
  | cons kv rest ih => cases kv; simp [canonFields, ih]

theorem semanticFields_sublist (excl : List String) (l : Config) :
    (semanticFields excl l).Sublist l := by
  induction l with
  | nil => simp [semanticFields]
  | cons kv rest ih =>
    cases kv with
    | mk k v =>
      by_cases hk : k ∈ excl
      · simpa [semanticFields, hk] using List.Sublist.cons (k, v) ih
      · simpa [semanticFields, hk] using List.Sublist.cons₂ (k, v) ih

theorem nodupKeys_semanticFields {excl : List String} {l : Config}
    (h : NodupKeys l) : NodupKeys (semanticFields excl l) :=
  ((semanticFields_sublist excl l).map Prod.fst).nodup h

theorem nodupKeys_canonFields {l : List (String × CVal)} (h : NodupKeys l) :
    NodupKeys (canonFields l) := by
  unfold NodupKeys
  rw [map_fst_canonFields]
  exact h

theorem nodupKeys_of_perm {l1 l2 : List (String × CVal)} (h : l1.Perm l2)
    (hnd : NodupKeys l1) : NodupKeys l2 :=
  (h.map Prod.fst).nodup hnd

/-- A record sorted by `keyLe` whose keys are pairwise distinct is sorted
by the strict key order. -/
theorem sorted_keyLt_of_sorted_keyLe {l : List (String × CVal)}
    (hs : List.Sorted keyLe l) (hnd : NodupKeys l) : List.Sorted keyLt l := by
  have hne : l.Pairwise (fun a b : String × CVal => a.1 ≠ b.1) := by
    have := (List.pairwise_map (R := fun a b : String => a ≠ b)).mp hnd
    exact this
  exact (hs.and hne).imp (fun h => lt_of_le_of_ne h.1 h.2)

/-- Canonical sorting is unique on records with distinct keys: two
key-sorted permutations of one another are equal. -/
theorem sort_eq_of_perm {l1 l2 : List (String × CVal)} (h : l1.Perm l2)
    (hnd : NodupKeys l1) :
    List.insertionSort keyLe l1 = List.insertionSort keyLe l2 := by
  have p1 := List.perm_insertionSort keyLe l1
  have p2 := List.perm_insertionSort keyLe l2
  have hperm : (List.insertionSort keyLe l1).Perm (List.insertionSort keyLe l2) :=
    (p1.trans h).trans p2.symm
  have hnd1 : NodupKeys (List.insertionSort keyLe l1) := nodupKeys_of_perm p1.symm hnd
  have hnd2 : NodupKeys (List.insertionSort keyLe l2) :=
    nodupKeys_of_perm p2.symm (nodupKeys_of_perm h hnd)
  exact List.eq_of_perm_of_sorted hperm
    (sorted_keyLt_of_sorted_keyLe (List.sorted_insertionSort keyLe l1) hnd1)
    (sorted_keyLt_of_sorted_keyLe (List.sorted_insertionSort keyLe l2) hnd2)

theorem canonFields_perm {l1 l2 : List (String × CVal)} (h : l1.Perm l2) :
    (canonFields l1).Perm (canonFields l2) := by
  have h1 : ∀ l : List (String × CVal),
      canonFields l = l.map (fun kv => (kv.1, canonVal kv.2)) := by
    intro l
    induction l with
    | nil => rfl
    | cons kv rest ih => cases kv; simp [canonFields, ih]
  rw [h1, h1]
  exact h.map _

theorem lookupKey_canonFields (k : String) (l : List (String × CVal)) :
    lookupKey k (canonFields l) = (lookupKey k l).map canonVal := by
  induction l with
  | nil => rfl
  | cons kv rest ih =>
    cases kv with
    | mk k' v =>
      by_cases hk : k' = k
      · simp [canonFields, lookupKey, hk]
      · simp [canonFields, lookupKey, hk, ih]

theorem lookupKey_semanticFields {excl : List String} {k : String}
    (hk : k ∉ excl) (l : Config) :
    lookupKey k (semanticFields excl l) = lookupKey k l := by
  induction l with
  | nil => rfl
  | cons kv rest ih =>
    cases kv with
    | mk k' v =>
      by_cases he : k' ∈ excl
      · have hne : k' ≠ k := fun hkk => hk (hkk ▸ he)
        simp [semanticFields, he, lookupKey, hne, ih]
      · by_cases hkk : k' = k
        · subst hkk
          simp [semanticFields, he, lookupKey]
        · simp [semanticFields, he, lookupKey, hkk, ih]

theorem lookupKey_eq_none_iff {k : String} {l : List (String × CVal)} :
    lookupKey k l = none ↔ k ∉ l.map Prod.fst := by
  induction l with
  | nil => simp [lookupKey]
  | cons kv rest ih =>
    cases kv with
    | mk k' v =>
      by_cases hk : k' = k
      · subst hk
        simp [lookupKey]
      · have hk2 : ¬ k = k' := fun h => hk h.symm
        simp [lookupKey, hk, hk2, ih]

theorem lookupKey_eq_some_of_mem {k : String} {v : CVal}
    {l : List (String × CVal)} (hnd : NodupKeys l) (hmem : (k, v) ∈ l) :
    lookupKey k l = some v := by
  induction l with
  | nil => cases hmem
  | cons kv rest ih =>
    cases kv with
    | mk k' v' =>
      rcases List.mem_cons.mp hmem with heq | htail
      · cases heq
        simp [lookupKey]
      · have hnd' : NodupKeys rest := (List.nodup_cons.mp hnd).2
        have hk'ne : k' ≠ k := by
          intro hkk
          subst hkk
          have : k' ∈ rest.map Prod.fst :=
            List.mem_map.mpr ⟨(k', v), htail, rfl⟩
          exact (List.nodup_cons.mp hnd).1 this
        simp only [lookupKey, if_neg hk'ne]
        exact ih hnd' htail

theorem mem_of_lookupKey_eq_some {k : String} {v : CVal}
    {l : List (String × CVal)} (h : lookupKey k l = some v) : (k, v) ∈ l := by
  induction l with
  | nil => cases h
  | cons kv rest ih =>
    cases kv with
    | mk k' v' =>
      by_cases hk : k' = k
      · subst hk
        simp [lookupKey] at h
        subst h
        exact List.mem_cons_self _ _
      · simp [lookupKey, hk] at h
        exact List.mem_cons_of_mem _ (ih h)

/-- Lookups in a record with distinct keys are invariant under permutation. -/
theorem lookupKey_perm {l1 l2 : List (String × CVal)} (h : l1.Perm l2)
    (hnd : NodupKeys l1) (k : String) : lookupKey k l1 = lookupKey k l2 := by
  cases h0 : lookupKey k l1 with
  | none =>
    have hk : k ∉ l1.map Prod.fst := lookupKey_eq_none_iff.mp h0
    have hk2 : k ∉ l2.map Prod.fst := fun hmem =>
      hk ((h.map Prod.fst).mem_iff.mpr hmem)
    exact (lookupKey_eq_none_iff.mpr hk2).symm
  | some v =>
    have hm : (k, v) ∈ l2 := h.mem_iff.mp (mem_of_lookupKey_eq_some h0)
    exact (lookupKey_eq_some_of_mem (nodupKeys_of_perm h hnd) hm).symm

/-- C2 helper: the semantic component of the derived Uid is determined by the
semantic fields up to re-ordering, for validated (distinct-key) records. -/
theorem derive_semantic_eq {c1 c2 : Config} {excl : List String}
    (h : (semanticFields excl c1).Perm (semanticFields excl c2))
    (hnd : NodupKeys (semanticFields excl c1)) (v o : String) :
    derive c1 excl v o = derive c2 excl v o := by
  unfold derive
  have hp : (canonFields (semanticFields excl c1)).Perm
      (canonFields (semanticFields excl c2)) := canonFields_perm h
  have hnd1 : NodupKeys (canonFields (semanticFields excl c1)) :=
    nodupKeys_canonFields hnd
  rw [sort_eq_of_perm hp hnd1]

/-- C2: UID derivation is a pure function of the semantic fields: two valid
configurations whose semantic (non-infra) fields are identical — here, equal
as sets of named fields, so that field re-ordering and any difference in the
excluded infra/execution subtree are immaterial — derive the same Uid. -/
theorem derive_infra_noninterference (c1 c2 : Config) (excl : List String)
    (v o : String)
    (h : (semanticFields excl c1).Perm (semanticFields excl c2))
    (hnd : NodupKeys (semanticFields excl c1)) :
    derive c1 excl v o = derive c2 excl v o :=
  derive_semantic_eq h hnd v o

theorem derive_infra_noninterference_witness :
    derive [("optimizer", CVal.str "Adam"), ("infra", CVal.tree [("gpus", CVal.int 8)])]
        ["infra"] "0" "__main__.Trainer.run"
      = derive [("infra", CVal.tree [("gpus", CVal.int 1)]), ("optimizer", CVal.str "Adam")]
        ["infra"] "0" "__main__.Trainer.run" :=
  derive_infra_noninterference _ _ _ _ _ (by decide) (by decide)

/-- C3: UID semantic injectivity: two valid configurations that disagree on
the (canonical) value of at least one non-excluded field derive distinct
Uids (for one owner and version). -/
theorem derive_semantic_injective (c1 c2 : Config) (excl : List String)
    (v o : String) (k : String) (hk : k ∉ excl)
    (h1 : NodupKeys c1) (h2 : NodupKeys c2)
    (hne : (lookupKey k c1).map canonVal ≠ (lookupKey k c2).map canonVal) :
    derive c1 excl v o ≠ derive c2 excl v o := by
  intro hEq
  apply hne
  have hsort : List.insertionSort keyLe (canonFields (semanticFields excl c1))
      = List.insertionSort keyLe (canonFields (semanticFields excl c2)) :=
    congrArg Uid.semantic hEq
  have key : ∀ c : Config, NodupKeys c →
      lookupKey k (List.insertionSort keyLe (canonFields (semanticFields excl c)))
        = (lookupKey k c).map canonVal := by
    intro c hnd
    have hndc : NodupKeys (canonFields (semanticFields excl c)) :=
      nodupKeys_canonFields (nodupKeys_semanticFields hnd)
    have hperm := (List.perm_insertionSort keyLe
      (canonFields (semanticFields excl c))).symm
    rw [← lookupKey_perm hperm hndc k]
    rw [lookupKey_canonFields, lookupKey_semanticFields hk]
  rw [← key c1 h1, ← key c2 h2, hsort]

theorem derive_semantic_injective_witness :
    derive [("optimizer", CVal.str "Adam"), ("infra", CVal.int 1)] ["infra"] "0" "o"
      ≠ derive [("optimizer", CVal.str "SGD"), ("infra", CVal.int 1)] ["infra"] "0" "o" :=
  derive_semantic_injective _ _ _ _ _ "optimizer"
    (by decide) (by decide) (by decide) (by decide)

/-- Modelled from the spec: the engine's error taxonomy (§7). -/
inductive ExcaError where
  | validationError (msg : String)
  | computationFailed (msg : String)
  | schedulerSubmissionFailed (msg : String)
  | jobFailed (reason : String)
  | timeout
  | cancelled
deriving DecidableEq

/-- Modelled from the spec: a CacheEntry is the "persisted unit identified
by (owner qualified name, Uid)" carrying a version tag and (once complete)
the payload.  Only complete entries appear in the committed part of the
store below, so an entry of this type is always a complete one. -/
structure CacheEntry (α : Type) where
  owner : String
  uid : Uid
  version : String
  payload : α
deriving DecidableEq

/-- Modelled from the spec: a scoped write handle returned by
`begin_write(owner, uid)` and consumed by `commit`/`abort` (§4.2). -/
structure WriteHandle where
  owner : String
  uid : Uid
  version : String
deriving DecidableEq

/-- Modelled from the spec: the ArtifactStore — fully committed entries on
one side, and staged (begun but not yet committed) writes on the other:
"the payload is staged at a temporary location and moved into place only
on success". -/
structure ArtifactStore (α : Type) where
  committed : List (CacheEntry α)
  staging : List WriteHandle
deriving DecidableEq

/-- Payload of the first committed entry matching owner, uid and version. -/
def findPayload {α : Type} (owner : String) (uid : Uid) (version : String) :
    List (CacheEntry α) → Option α
  | [] => none
  | e :: rest =>
    if e.owner = owner ∧ e.uid = uid ∧ e.version = version then some e.payload
    else findPayload owner uid version rest

/-- Modelled from the spec: `exists(owner, uid, version) -> bool`; "a cache
hit requires both a matching Uid-keyed entry AND a matching version tag".
Readers consult only fully committed entries. -/
def storeExists {α : Type} (s : ArtifactStore α) (owner : String) (uid : Uid)
    (version : String) : Bool :=
  (findPayload owner uid version s.committed).isSome

/-- Modelled from the spec: `read(owner, uid) -> Payload | NotFound` at a
given version tag; readers consult only fully committed entries. -/
def storeRead {α : Type} (s : ArtifactStore α) (owner : String) (uid : Uid)
    (version : String) : Option α :=
  findPayload owner uid version s.committed

def removeHandle (h : WriteHandle) : List WriteHandle → List WriteHandle
  | [] => []
  | w :: rest => if w = h then rest else w :: removeHandle h rest

/-- Modelled from the spec: `begin_write(owner, uid) -> WriteHandle`
(scoped acquisition): staging is opened, no committed entry is touched. -/
def beginWrite {α : Type} (s : ArtifactStore α) (owner : String) (uid : Uid)
    (version : String) : WriteHandle × ArtifactStore α :=
  (⟨owner, uid, version⟩, ⟨s.committed, ⟨owner, uid, version⟩ :: s.staging⟩)

/-- Modelled from the spec: `commit(WriteHandle, payload)` — the staged
payload is moved into place, making the entry complete and visible. -/
def commit {α : Type} (s : ArtifactStore α) (h : WriteHandle) (payload : α) :
    ArtifactStore α :=
  ⟨⟨h.owner, h.uid, h.version, payload⟩ :: s.committed, removeHandle h s.staging⟩

/-- Modelled from the spec: `abort(WriteHandle)` "releases any staging
resources and leaves no `complete` entry behind". -/
def storeAbort {α : Type} (s : ArtifactStore α) (h : WriteHandle) :
    ArtifactStore α :=
  ⟨s.committed, removeHandle h s.staging⟩

/-- Result of one cached invocation: the value or error returned to the
caller, the artifact store afterwards, and how many times the underlying
callable actually ran. -/
structure InvokeResult (α : Type) where
  result : Except ExcaError α
  store : ArtifactStore α
  computations : Nat

/-- Modelled from the spec (§2 control flow, §4.3): one invocation of the
function wrapped by `infra.apply`.  The Uid is derived, the store is
consulted for a completed artifact under that identity and version; on a
hit the stored result is returned without running the callable; on a miss
the callable runs (`compute` is its outcome — the callable is a pure
function of the configuration), a successful payload is committed
atomically, and a failure is propagated after aborting the staged write. -/
def invoke {α : Type} (s : ArtifactStore α) (owner : String) (cfg : Config)
    (excl : List String) (version : String) (compute : Except ExcaError α) :
    InvokeResult α :=
  let uid := derive cfg excl version owner
  match findPayload owner uid version s.committed with
  | some p => ⟨Except.ok p, s, 0⟩
  | none =>
    match compute with
    | Except.ok p =>
      let hw := beginWrite s owner uid version
      ⟨Except.ok p, commit hw.2 hw.1 p, 1⟩
    | Except.error e =>
      let hw := beginWrite s owner uid version
      ⟨Except.error e, storeAbort hw.2 hw.1, 1⟩

theorem removeHandle_cons_self (h : WriteHandle) (l : List WriteHandle) :
    removeHandle h (h :: l) = l := by
  simp [removeHandle]

theorem storeAbort_beginWrite {α : Type} (s : ArtifactStore α)
    (owner : String) (uid : Uid) (version : String) :
    storeAbort (beginWrite s owner uid version).2
      (beginWrite s owner uid version).1 = s := by
  simp [storeAbort, beginWrite, removeHandle_cons_self]

/-- A cache hit returns the stored payload without running the callable. -/
theorem invoke_hit {α : Type} (s : ArtifactStore α) (owner : String)
    (cfg : Config) (excl : List String) (version : String)
    (compute : Except ExcaError α) (p : α)
    (hhit : findPayload owner (derive cfg excl version owner) version
      s.committed = some p) :
    invoke s owner cfg excl version compute = ⟨Except.ok p, s, 0⟩ := by
  simp [invoke, hhit]

/-- A cache miss with a successful computation runs the callable once and
commits the payload under the derived Uid. -/
theorem invoke_miss_ok {α : Type} (s : ArtifactStore α) (owner : String)
    (cfg : Config) (excl : List String) (version : String) (p : α)
    (hmiss : findPayload owner (derive cfg excl version owner) version
      s.committed = none) :
    invoke s owner cfg excl version (Except.ok p)
      = ⟨Except.ok p,
        ⟨⟨owner, derive cfg excl version owner, version, p⟩ :: s.committed,
          s.staging⟩, 1⟩ := by
  simp [invoke, hmiss, beginWrite, commit, removeHandle_cons_self]

/-- A cache miss with a failing computation runs the callable once,
propagates the error and leaves the store exactly as it was. -/
theorem invoke_miss_error {α : Type} (s : ArtifactStore α) (owner : String)
    (cfg : Config) (excl : List String) (version : String) (e : ExcaError)
    (hmiss : findPayload owner (derive cfg excl version owner) version
      s.committed = none) :
    invoke s owner cfg excl version (Except.error e)
      = ⟨Except.error e, s, 1⟩ := by
  simp [invoke, hmiss]
  exact storeAbort_beginWrite s owner (derive cfg excl version owner) version

/-- C1: compute-once idempotence.  Starting from a store with no completed
artifact for the configuration's Uid, the first invocation runs the
callable exactly once, and a second invocation with the same configuration
runs it zero times and returns the stored result, equal to the first. -/
theorem invoke_compute_once {α : Type} (s : ArtifactStore α) (owner : String)
    (cfg : Config) (excl : List String) (version : String) (p : α)
    (hmiss : findPayload owner (derive cfg excl version owner) version
      s.committed = none) :
    (invoke s owner cfg excl version (Except.ok p)).computations = 1 ∧
    (invoke s owner cfg excl version (Except.ok p)).result = Except.ok p ∧
    (invoke (invoke s owner cfg excl version (Except.ok p)).store
      owner cfg excl version (Except.ok p)).computations = 0 ∧
    (invoke (invoke s owner cfg excl version (Except.ok p)).store
      owner cfg excl version (Except.ok p)).result
      = (invoke s owner cfg excl version (Except.ok p)).result := by
  have h1 := invoke_miss_ok s owner cfg excl version p hmiss
  have hhit : findPayload owner (derive cfg excl version owner) version
      (invoke s owner cfg excl version (Except.ok p)).store.committed
      = some p := by
    rw [h1]
    simp [findPayload]
  have h2 := invoke_hit (invoke s owner cfg excl version (Except.ok p)).store
    owner cfg excl version (Except.ok p) p hhit
  refine ⟨by rw [h1], by rw [h1], by rw [h2], by rw [h2, h1]⟩

theorem invoke_compute_once_witness :
    (invoke (α := Nat) ⟨[], []⟩ "owner" [("x", CVal.int 4)] ["infra"] "1"
      (Except.ok 7)).computations = 1 ∧
    (invoke (α := Nat) ⟨[], []⟩ "owner" [("x", CVal.int 4)] ["infra"] "1"
      (Except.ok 7)).result = Except.ok 7 ∧
    (invoke (invoke (α := Nat) ⟨[], []⟩ "owner" [("x", CVal.int 4)] ["infra"] "1"
      (Except.ok 7)).store "owner" [("x", CVal.int 4)] ["infra"] "1"
      (Except.ok 7)).computations = 0 ∧
    (invoke (invoke (α := Nat) ⟨[], []⟩ "owner" [("x", CVal.int 4)] ["infra"] "1"
      (Except.ok 7)).store "owner" [("x", CVal.int 4)] ["infra"] "1"
      (Except.ok 7)).result
      = (invoke (α := Nat) ⟨[], []⟩ "owner" [("x", CVal.int 4)] ["infra"] "1"
        (Except.ok 7)).result :=
  invoke_compute_once ⟨[], []⟩ "owner" [("x", CVal.int 4)] ["infra"] "1" 7 rfl

/-- C4: atomic write visibility.  Opening a staged write changes nothing a
reader can observe: `exists` answers exactly as before for every key, so a
process dying between `begin_write` and `commit` leaves no visible entry —
in particular, if no completed artifact existed for the key being written,
`exists` still answers `false` for it afterwards; `abort` likewise leaves
readers' observations unchanged. -/
theorem atomic_write_visibility {α : Type} (s : ArtifactStore α)
    (owner o' : String) (uid u' : Uid) (version v' : String) :
    storeExists (beginWrite s owner uid version).2 o' u' v'
      = storeExists s o' u' v' ∧
    (storeExists s owner uid version = false →
      storeExists (beginWrite s owner uid version).2 owner uid version = false) ∧
    storeExists (storeAbort (beginWrite s owner uid version).2
      (beginWrite s owner uid version).1) o' u' v' = storeExists s o' u' v' := by
  refine ⟨rfl, fun h => h, ?_⟩
  rw [storeAbort_beginWrite]

theorem atomic_write_visibility_witness :
    storeExists (beginWrite (α := Nat) ⟨[], []⟩ "o" ⟨"o", "1", []⟩ "1").2
      "o" ⟨"o", "1", []⟩ "1" = storeExists (α := Nat) ⟨[], []⟩ "o" ⟨"o", "1", []⟩ "1" ∧
    (storeExists (α := Nat) ⟨[], []⟩ "o" ⟨"o", "1", []⟩ "1" = false →
      storeExists (beginWrite (α := Nat) ⟨[], []⟩ "o" ⟨"o", "1", []⟩ "1").2
        "o" ⟨"o", "1", []⟩ "1" = false) ∧
    storeExists (storeAbort (beginWrite (α := Nat) ⟨[], []⟩ "o" ⟨"o", "1", []⟩ "1").2
      (beginWrite (α := Nat) ⟨[], []⟩ "o" ⟨"o", "1", []⟩ "1").1)
      "o" ⟨"o", "1", []⟩ "1" = storeExists (α := Nat) ⟨[], []⟩ "o" ⟨"o", "1", []⟩ "1" :=
  atomic_write_visibility ⟨[], []⟩ "o" "o" ⟨"o", "1", []⟩ ⟨"o", "1", []⟩ "1" "1"

/-- C5: version bump invalidation without deletion.  After computing a
result under one version tag, re-invoking the same configuration under a
different version tag runs the computation again (the old entry is a cache
miss, not served), returns the new result, and the old version's entry is
still present in the store afterwards. -/
theorem version_bump_recomputes {α : Type} (s : ArtifactStore α)
    (owner : String) (cfg : Config) (excl : List String) (v1 v2 : String)
    (p1 p2 : α) (hne : v1 ≠ v2)
    (hmiss1 : findPayload owner (derive cfg excl v1 owner) v1 s.committed = none)
    (hmiss2 : findPayload owner (derive cfg excl v2 owner) v2 s.committed = none) :
    (invoke (invoke s owner cfg excl v1 (Except.ok p1)).store
      owner cfg excl v2 (Except.ok p2)).computations = 1 ∧
    (invoke (invoke s owner cfg excl v1 (Except.ok p1)).store
      owner cfg excl v2 (Except.ok p2)).result = Except.ok p2 ∧
    findPayload owner (derive cfg excl v1 owner) v1
      (invoke (invoke s owner cfg excl v1 (Except.ok p1)).store
        owner cfg excl v2 (Except.ok p2)).store.committed = some p1 := by
  have h1 := invoke_miss_ok s owner cfg excl v1 p1 hmiss1
  have hmiss2' : findPayload owner (derive cfg excl v2 owner) v2
      (invoke s owner cfg excl v1 (Except.ok p1)).store.committed = none := by
    rw [h1]
    show findPayload owner (derive cfg excl v2 owner) v2
      (⟨owner, derive cfg excl v1 owner, v1, p1⟩ :: s.committed) = none
    simp [findPayload, hne, hmiss2]
  have h2 := invoke_miss_ok (invoke s owner cfg excl v1 (Except.ok p1)).store
    owner cfg excl v2 p2 hmiss2'
  refine ⟨by rw [h2], by rw [h2], ?_⟩
  rw [h2]
  show findPayload owner (derive cfg excl v1 owner) v1
    (⟨owner, derive cfg excl v2 owner, v2, p2⟩
      :: (invoke s owner cfg excl v1 (Except.ok p1)).store.committed) = some p1
  rw [h1]
  show findPayload owner (derive cfg excl v1 owner) v1
    (⟨owner, derive cfg excl v2 owner, v2, p2⟩
      :: ⟨owner, derive cfg excl v1 owner, v1, p1⟩ :: s.committed) = some p1
  simp [findPayload, Ne.symm hne]

theorem version_bump_recomputes_witness :
    (invoke (invoke (α := Nat) ⟨[], []⟩ "o" [("x", CVal.int 4)] ["infra"] "1"
      (Except.ok 7)).store "o" [("x", CVal.int 4)] ["infra"] "2"
      (Except.ok 9)).computations = 1 ∧
    (invoke (invoke (α := Nat) ⟨[], []⟩ "o" [("x", CVal.int 4)] ["infra"] "1"
      (Except.ok 7)).store "o" [("x", CVal.int 4)] ["infra"] "2"
      (Except.ok 9)).result = Except.ok 9 ∧
    findPayload "o" (derive [("x", CVal.int 4)] ["infra"] "1" "o") "1"
      (invoke (invoke (α := Nat) ⟨[], []⟩ "o" [("x", CVal.int 4)] ["infra"] "1"
        (Except.ok 7)).store "o" [("x", CVal.int 4)] ["infra"] "2"
        (Except.ok 9)).store.committed = some 7 :=
  version_bump_recomputes ⟨[], []⟩ "o" [("x", CVal.int 4)] ["infra"] "1" "2" 7 9
    (by decide) rfl rfl

/-- C8: failure atomicity of the cache.  Whenever an invocation ends in a
failure (of any kind in the taxonomy: the callable raised, the scheduler
submission failed, the job failed, timed out or was cancelled), the
artifact store is exactly as it was before — no entry became complete and
no payload was persisted — so the identical invocation can simply be
retried. -/
theorem failure_leaves_cache_untouched {α : Type} (s : ArtifactStore α)
    (owner : String) (cfg : Config) (excl : List String) (version : String)
    (compute : Except ExcaError α) (e : ExcaError)
    (h : (invoke s owner cfg excl version compute).result = Except.error e) :
    (invoke s owner cfg excl version compute).store = s := by
  cases hfind : findPayload owner (derive cfg excl version owner) version
      s.committed with
  | some p =>
    rw [invoke_hit s owner cfg excl version compute p hfind] at h
    simp at h
  | none =>
    cases compute with
    | ok p =>
      rw [invoke_miss_ok s owner cfg excl version p hfind] at h
      simp at h
    | error e' =>
      rw [invoke_miss_error s owner cfg excl version e' hfind]

/-- Modelled from the spec: MapRunner (§4.5) — `map(ordered configs,
version, owner_name)` applies the cached invocation element-wise in input
order, threading the artifact store: cache hits are resolved immediately,
misses run the computation and commit, failures occupy their own output
slot.  The first component is the ordered result sequence, the second the
store afterwards. -/
def mapRun {α : Type} (owner : String) (excl : List String) (version : String)
    (compute : Config → Except ExcaError α) :
    ArtifactStore α → List Config → List (Except ExcaError α) × ArtifactStore α
  | s, [] => ([], s)
  | s, cfg :: rest =>
    let r := invoke s owner cfg excl version (compute cfg)
    let rs := mapRun owner excl version compute r.store rest
    (r.result :: rs.1, rs.2)

theorem mapRun_results {α : Type} (owner : String) (excl : List String)
    (version : String) (compute : Config → Except ExcaError α)
    (cfgs : List Config) : ∀ s : ArtifactStore α,
    (∀ cfg ∈ cfgs, findPayload owner (derive cfg excl version owner) version
      s.committed = none) →
    (cfgs.map fun c => derive c excl version owner).Nodup →
    (mapRun owner excl version compute s cfgs).1 = cfgs.map compute := by
  induction cfgs with
  | nil =>
    intro s _ _
    simp [mapRun]
  | cons cfg rest ih =>
    intro s hfresh huid
    have hm := hfresh cfg (List.mem_cons_self _ _)
    have hnd := List.nodup_cons.mp huid
    cases hc : compute cfg with
    | ok p =>
      have h1 : invoke s owner cfg excl version (compute cfg)
          = ⟨Except.ok p,
            ⟨⟨owner, derive cfg excl version owner, version, p⟩ :: s.committed,
              s.staging⟩, 1⟩ := by
        rw [hc]
        exact invoke_miss_ok s owner cfg excl version p hm
      have hfresh' : ∀ cfg' ∈ rest,
          findPayload owner (derive cfg' excl version owner) version
            (invoke s owner cfg excl version (compute cfg)).store.committed
            = none := by
        intro cfg' hmem
        rw [h1]
        show findPayload owner (derive cfg' excl version owner) version
          (⟨owner, derive cfg excl version owner, version, p⟩ :: s.committed)
          = none
        have hune : ¬ derive cfg excl version owner
            = derive cfg' excl version owner := by
          intro he
          apply hnd.1
          simp only [List.mem_map]
          exact ⟨cfg', hmem, he.symm⟩
        simp [findPayload, hune, hfresh cfg' (List.mem_cons_of_mem _ hmem)]
      simp only [mapRun, List.map_cons]
      congr 1
      · rw [h1, hc]
      · exact ih _ hfresh' hnd.2
    | error e =>
      have h1 : invoke s owner cfg excl version (compute cfg)
          = ⟨Except.error e, s, 1⟩ := by
        rw [hc]
        exact invoke_miss_error s owner cfg excl version e hm
      have hfresh' : ∀ cfg' ∈ rest,
          findPayload owner (derive cfg' excl version owner) version
            (invoke s owner cfg excl version (compute cfg)).store.committed
            = none := by
        intro cfg' hmem
        rw [h1]
        exact hfresh cfg' (List.mem_cons_of_mem _ hmem)
      simp only [mapRun, List.map_cons]
      congr 1
      · rw [h1, hc]
      · exact ih _ hfresh' hnd.2

/-- C6: MapRunner partial-failure semantics.  Over a fresh run (no cached
entry yet for any input, pairwise distinct Uids), the output sequence is
exactly the element-wise outcome of the computation, in input order and of
the input's length: the slot of an element whose computation raises holds
that error, every other slot holds its own result, and the map itself
returns a full sequence rather than raising. -/
theorem mapRun_partial_failure {α : Type} (owner : String) (excl : List String)
    (version : String) (compute : Config → Except ExcaError α)
    (s : ArtifactStore α) (cfgs : List Config)
    (hfresh : ∀ cfg ∈ cfgs, findPayload owner (derive cfg excl version owner)
      version s.committed = none)
    (huid : (cfgs.map fun c => derive c excl version owner).Nodup) :
    (mapRun owner excl version compute s cfgs).1 = cfgs.map compute ∧
    (mapRun owner excl version compute s cfgs).1.length = cfgs.length := by
  have h := mapRun_results owner excl version compute cfgs s hfresh huid
  exact ⟨h, by rw [h, List.length_map]⟩

theorem mapRun_partial_failure_witness :
    (mapRun "o" ["infra"] "1"
      (fun c => if c = [("x", CVal.int 2)]
        then Except.error (ExcaError.computationFailed "B failed")
        else Except.ok 5)
      ⟨[], []⟩
      [[("x", CVal.int 1)], [("x", CVal.int 2)], [("x", CVal.int 3)]]).1
      = [[("x", CVal.int 1)], [("x", CVal.int 2)], [("x", CVal.int 3)]].map
        (fun c => if c = [("x", CVal.int 2)]
          then Except.error (ExcaError.computationFailed "B failed")
          else Except.ok 5) ∧
    (mapRun "o" ["infra"] "1"
      (fun c => if c = [("x", CVal.int 2)]
        then Except.error (ExcaError.computationFailed "B failed")
        else Except.ok 5)
      ⟨[], []⟩
      [[("x", CVal.int 1)], [("x", CVal.int 2)], [("x", CVal.int 3)]]).1.length
      = [[("x", CVal.int 1)], [("x", CVal.int 2)], [("x", CVal.int 3)]].length :=
  mapRun_partial_failure "o" ["infra"] "1" _ ⟨[], []⟩ _
    (by decide) (by decide)

theorem failure_leaves_cache_untouched_witness :
    (invoke (α := Nat) ⟨[], []⟩ "o" [("x", CVal.int 4)] ["infra"] "1"
      (Except.error (ExcaError.computationFailed "boom"))).store
      = (⟨[], []⟩ : ArtifactStore Nat) :=
  failure_leaves_cache_untouched ⟨[], []⟩ "o" [("x", CVal.int 4)] ["infra"] "1"
    (Except.error (ExcaError.computationFailed "boom"))
    (ExcaError.computationFailed "boom") rfl

/-- Modelled from the spec: the resource shape of one scheduler submission
(compute/memory/accelerator counts). -/
structure Resource where
  gpus : Nat
  cpus : Nat
  mem : Nat
deriving DecidableEq

/-- Modelled from the spec: a WorkUnit — "one pending invocation — a Uid,
the callable/closure to run, and the destination CacheEntry"; for array
batching its identity and resource requirements are what matters. -/
structure WorkUnit where
  uid : Uid
  res : Resource
deriving DecidableEq

/-- Add one unit to the batch being built: it is appended to the
submission of its resource class if one is open, else it opens a new one. -/
def addToGroups (u : WorkUnit) :
    List (Resource × List WorkUnit) → List (Resource × List WorkUnit)
  | [] => [(u.res, [u])]
  | (r, us) :: gs =>
    if u.res = r then (r, us ++ [u]) :: gs else (r, us) :: addToGroups u gs

/-- Modelled from the spec: ClusterSubmitter array batching — "Array
submission batches WorkUnits that share an identical resource_spec into
one scheduler call ... Grouping is a stable partition by resource_spec
equality, preserving relative submission order within each partition."
Each element of the result is one scheduler submission call, holding its
units in submission order. -/
def groupByResource (units : List WorkUnit) :
    List (Resource × List WorkUnit) :=
  units.foldl (fun gs u => addToGroups u gs) []

/-- The units of the submission for resource spec `r` (empty if none). -/
def findGroup (r : Resource) : List (Resource × List WorkUnit) → List WorkUnit
  | [] => []
  | (r', us) :: gs => if r' = r then us else findGroup r gs

theorem findGroup_addToGroups (r : Resource) (u : WorkUnit)
    (gs : List (Resource × List WorkUnit)) :
    findGroup r (addToGroups u gs)
      = if u.res = r then findGroup r gs ++ [u] else findGroup r gs := by
  induction gs with
  | nil =>
    by_cases h : u.res = r
    · simp [addToGroups, findGroup, h]
    · simp [addToGroups, findGroup, h]
  | cons g gs ih =>
    obtain ⟨r', us⟩ := g
    by_cases hur : u.res = r'
    · by_cases hr : r' = r
      · simp [addToGroups, findGroup, hur, hr, hur.trans hr]
      · have hne : ¬ u.res = r := fun h => hr (hur.symm.trans h)
        simp [addToGroups, findGroup, hur, hr, hne]
    · by_cases hr : r' = r
      · have hne : ¬ u.res = r := fun h => hur (h.trans hr.symm)
        simp [addToGroups, findGroup, hur, hr, hne]
      · simp [addToGroups, findGroup, hur, hr, ih]

theorem findGroup_foldl (units : List WorkUnit) :
    ∀ (gs : List (Resource × List WorkUnit)) (r : Resource),
    findGroup r (units.foldl (fun gs u => addToGroups u gs) gs)
      = findGroup r gs ++ units.filter (fun u => u.res == r) := by
  induction units with
  | nil =>
    intro gs r
    simp
  | cons u rest ih =>
    intro gs r
    simp only [List.foldl_cons, List.filter_cons]
    rw [ih]
    by_cases h : u.res = r
    · rw [findGroup_addToGroups]
      simp [h]
    · rw [findGroup_addToGroups]
      simp [h]

theorem map_fst_addToGroups (u : WorkUnit)
    (gs : List (Resource × List WorkUnit)) :
    (addToGroups u gs).map Prod.fst
      = if u.res ∈ gs.map Prod.fst then gs.map Prod.fst
        else gs.map Prod.fst ++ [u.res] := by
  induction gs with
  | nil => simp [addToGroups]
  | cons g gs ih =>
    obtain ⟨r', us⟩ := g
    by_cases h : u.res = r'
    · simp [addToGroups, h]
    · by_cases hm : u.res ∈ gs.map Prod.fst
      · simp [addToGroups, h, ih, hm]
      · simp [addToGroups, h, ih, hm]

theorem nodup_keys_addToGroups (u : WorkUnit)
    (gs : List (Resource × List WorkUnit))
    (h : (gs.map Prod.fst).Nodup) : ((addToGroups u gs).map Prod.fst).Nodup := by
  rw [map_fst_addToGroups]
  by_cases hm : u.res ∈ gs.map Prod.fst
  · rw [if_pos hm]
    exact h
  · rw [if_neg hm]
    exact h.append (List.nodup_singleton _)
      (by simpa [List.disjoint_singleton] using hm)

theorem nodup_keys_foldl (units : List WorkUnit) :
    ∀ gs : List (Resource × List WorkUnit), (gs.map Prod.fst).Nodup →
    ((units.foldl (fun gs u => addToGroups u gs) gs).map Prod.fst).Nodup := by
  induction units with
  | nil =>
    intro gs h
    simpa using h
  | cons u rest ih =>
    intro gs h
    simp only [List.foldl_cons]
    exact ih _ (nodup_keys_addToGroups u gs h)

theorem mem_keys_foldl (units : List WorkUnit) :
    ∀ (gs : List (Resource × List WorkUnit)) (r : Resource),
    r ∈ (units.foldl (fun gs u => addToGroups u gs) gs).map Prod.fst
      ↔ r ∈ gs.map Prod.fst ∨ r ∈ units.map WorkUnit.res := by
  induction units with
  | nil =>
    intro gs r
    simp
  | cons u rest ih =>
    intro gs r
    simp only [List.foldl_cons, List.map_cons, List.mem_cons]
    rw [ih, map_fst_addToGroups]
    by_cases hm : u.res ∈ gs.map Prod.fst
    · rw [if_pos hm]
      constructor
      · rintro (h | h)
        · exact Or.inl h
        · exact Or.inr (Or.inr h)
      · rintro (h | h | h)
        · exact Or.inl h
        · exact Or.inl (by rw [h]; exact hm)
        · exact Or.inr h
    · rw [if_neg hm]
      simp only [List.mem_append, List.mem_singleton]
      constructor
      · rintro ((h | h) | h)
        · exact Or.inl h
        · exact Or.inr (Or.inl h)
        · exact Or.inr (Or.inr h)
      · rintro (h | h | h)
        · exact Or.inl (Or.inl h)
        · exact Or.inl (Or.inr h)
        · exact Or.inr h

/-- C7: array batching is a stable partition by resource spec.  Submitting
a sequence of WorkUnits yields exactly one scheduler submission per
distinct resource spec (so k equality classes give k submissions, and
units with differing specs are never merged), and the submission of each
resource spec contains exactly the units of that class in their original
relative order. -/
theorem array_batching_stable_partition (units : List WorkUnit) :
    (groupByResource units).length = (units.map WorkUnit.res).toFinset.card ∧
    ∀ r : Resource,
      findGroup r (groupByResource units) = units.filter (fun u => u.res == r) := by
  constructor
  · have hnd : ((groupByResource units).map Prod.fst).Nodup :=
      nodup_keys_foldl units [] (by simp)
    have hmem : ∀ r : Resource, r ∈ (groupByResource units).map Prod.fst
        ↔ r ∈ units.map WorkUnit.res := by
      intro r
      rw [groupByResource, mem_keys_foldl]
      simp
    calc (groupByResource units).length
        = ((groupByResource units).map Prod.fst).length := by
          rw [List.length_map]
      _ = ((groupByResource units).map Prod.fst).toFinset.card :=
          (List.toFinset_card_of_nodup hnd).symm
      _ = (units.map WorkUnit.res).toFinset.card := by
          congr 1
          apply Finset.ext
          intro r
          simp only [List.mem_toFinset]
          exact hmem r
  · intro r
    rw [groupByResource, findGroup_foldl]
    simp [findGroup]

theorem array_batching_stable_partition_witness :
    (groupByResource
      [⟨⟨"o", "1", [("i", CVal.int 1)]⟩, ⟨1, 8, 4⟩⟩,
       ⟨⟨"o", "1", [("i", CVal.int 2)]⟩, ⟨1, 8, 4⟩⟩,
       ⟨⟨"o", "1", [("i", CVal.int 3)]⟩, ⟨1, 8, 4⟩⟩,
       ⟨⟨"o", "1", [("i", CVal.int 4)]⟩, ⟨1, 8, 4⟩⟩,
       ⟨⟨"o", "1", [("i", CVal.int 5)]⟩, ⟨1, 8, 4⟩⟩]).length = 1 ∧
    (groupByResource
      [⟨⟨"o", "1", [("i", CVal.int 1)]⟩, ⟨1, 8, 4⟩⟩,
       ⟨⟨"o", "1", [("i", CVal.int 2)]⟩, ⟨2, 8, 4⟩⟩,
       ⟨⟨"o", "1", [("i", CVal.int 3)]⟩, ⟨1, 8, 4⟩⟩,
       ⟨⟨"o", "1", [("i", CVal.int 4)]⟩, ⟨2, 8, 4⟩⟩,
       ⟨⟨"o", "1", [("i", CVal.int 5)]⟩, ⟨1, 8, 4⟩⟩]).length = 2 := by
  constructor
  · rw [(array_batching_stable_partition _).1]
    decide
  · rw [(array_batching_stable_partition _).1]
    decide

/-- Modelled from the spec and the notebook's directory listings
(`test/__main__.random_mock_class.function_i_dont_fancy_recomputing,1/`,
`/tmp/__main__.Trainer.run,0/`): the per-owner cache directory name is the
owner's qualified name and the version tag joined by a comma. -/
def ownerDirName (owner version : String) : String :=
  owner ++ "," ++ version

/-- The owner directory sits inside the configured infra folder. -/
def ownerDirectory (folder owner version : String) : String :=
  folder ++ "/" ++ ownerDirName owner version

theorem append_comma_inj (l1 : List Char) : ∀ (l2 m1 m2 : List Char),
    ',' ∉ l1 → ',' ∉ l2 →
    l1 ++ ',' :: m1 = l2 ++ ',' :: m2 → l1 = l2 ∧ m1 = m2 := by
  induction l1 with
  | nil =>
    intro l2 m1 m2 _ h2 h
    cases l2 with
    | nil =>
      refine ⟨rfl, ?_⟩
      simpa using h
    | cons d l2 =>
      simp only [List.nil_append, List.cons_append] at h
      injection h with hd ht
      exact absurd (by rw [hd]; exact List.mem_cons_self d _) h2
  | cons c l1 ih =>
    intro l2 m1 m2 h1 h2 h
    cases l2 with
    | nil =>
      simp only [List.cons_append, List.nil_append] at h
      injection h with hd ht
      exact absurd (by rw [← hd]; exact List.mem_cons_self c _) h1
    | cons d l2 =>
      simp only [List.cons_append] at h
      injection h with hd ht
      have hrec := ih l2 m1 m2 (fun hm => h1 (List.mem_cons_of_mem _ hm))
        (fun hm => h2 (List.mem_cons_of_mem _ hm)) ht
      exact ⟨by rw [hd, hrec.1], hrec.2⟩

theorem ownerDirName_inj (o1 v1 o2 v2 : String)
    (h1 : ',' ∉ o1.data) (h2 : ',' ∉ o2.data)
    (h : ownerDirName o1 v1 = ownerDirName o2 v2) : o1 = o2 ∧ v1 = v2 := by
  have hd : o1.data ++ ',' :: v1.data = o2.data ++ ',' :: v2.data := by
    have hc := congrArg String.data h
    simp only [ownerDirName, String.data_append] at hc
    simpa using hc
  obtain ⟨ho, hv⟩ := append_comma_inj o1.data o2.data v1.data v2.data h1 h2 hd
  constructor
  · cases o1
    cases o2
    exact congrArg String.mk ho
  · cases v1
    cases v2
    exact congrArg String.mk hv

/-- C9: cache owner-directory naming.  The entries of a cached function
live under a directory inside the configured infra folder named by the
owner's qualified name and the version tag joined by a comma (matching the
notebook's `test/__main__.random_mock_class.function_i_dont_fancy_recomputing,1`),
and — since qualified names contain no comma — distinct owners or distinct
versions never share a directory name. -/
theorem cache_owner_directory_naming :
    ownerDirectory "test"
      "__main__.random_mock_class.function_i_dont_fancy_recomputing" "1"
      = "test/__main__.random_mock_class.function_i_dont_fancy_recomputing,1" ∧
    (∀ o1 v1 o2 v2 : String, ',' ∉ o1.data → ',' ∉ o2.data →
      (o1, v1) ≠ (o2, v2) → ownerDirName o1 v1 ≠ ownerDirName o2 v2) := by
  refine ⟨by decide, fun o1 v1 o2 v2 h1 h2 hne h => ?_⟩
  obtain ⟨ho, hv⟩ := ownerDirName_inj o1 v1 o2 v2 h1 h2 h
  exact hne (by rw [ho, hv])

theorem cache_owner_directory_naming_witness :
    ownerDirectory "test"
      "__main__.random_mock_class.function_i_dont_fancy_recomputing" "1"
      = "test/__main__.random_mock_class.function_i_dont_fancy_recomputing,1" ∧
    ownerDirName "__main__.Trainer.run" "0" ≠ ownerDirName "__main__.Trainer.run" "1" :=
  ⟨cache_owner_directory_naming.1,
   cache_owner_directory_naming.2 "__main__.Trainer.run" "0" "__main__.Trainer.run" "1"
     (by decide) (by decide) (by decide)⟩

/-- Modelled from the spec and the notebook: the TaskInfra execution
policy object attached to a cached method, with its infra fields and their
defaults; the notebook's `TaskInfra()` (no version argument) caches the
owner `__main__.Trainer.run` under `/tmp/__main__.Trainer.run,0/`, so the
version tag defaults to "0". -/
structure TaskInfra where
  folder : Option String := none
  version : String := "0"
  gpus_per_node : Nat := 0
  cpus_per_task : Nat := 1
  cluster : Option String := none

/-- Uid derivation as performed for a task attached to this infra: the
infra's version tag is the one mixed into the digest. -/
def TaskInfra.deriveUid (infra : TaskInfra) (cfg : Config) (excl : List String)
    (owner : String) : Uid :=
  derive cfg excl infra.version owner

/-- C10: default version tag.  A TaskInfra constructed without an explicit
version argument carries version "0": that tag is the one mixed into every
Uid it derives, and the owner `__main__.Trainer.run` with a `/tmp` folder
is cached under `/tmp/__main__.Trainer.run,0`. -/
theorem default_version_tag :
    ({} : TaskInfra).version = "0" ∧
    (∀ (cfg : Config) (excl : List String) (owner : String),
      (TaskInfra.deriveUid {} cfg excl owner).version = "0") ∧
    ownerDirectory "/tmp" "__main__.Trainer.run" ({} : TaskInfra).version
      = "/tmp/__main__.Trainer.run,0" :=
  ⟨rfl, fun _ _ _ => rfl, by decide⟩

end Exca
